import Mathlib

/-!
Shallow embedding of the `bump` tool (package `bump`, Go) and proofs about it.

Strings are modelled as `List Char`.  A Go function returning `(T, error)` is
modelled as `T × Option BumpError` (with `none` meaning a `nil` error), and a
Go function returning a bare `error` as `Option BumpError`.  Go `int` is
modelled as `Int` with 64-bit two's-complement wraparound made explicit in the
increment operations (`int64Wrap`), matching Go's defined overflow semantics
on 64-bit platforms.  Effectful collaborator calls (go-git remote access,
tag creation, push, delete) are modelled by a `Repo` record holding each
call's outcome.
-/

namespace Bump

/-- Error values of the package, mirroring the `Error` string constants and
the errors produced by `strconv.Atoi` and by the go-git collaborator
(`gitError`), plus `errors.Wrap` (`wrapped`). -/
inductive BumpError where
  | versionFormat
  | noTagsFound
  | noVersionTagsFound
  | cannotIncrementMajAndMin
  | atoiSyntaxErr
  | atoiRange
  | gitError (msg : List Char)
  | wrapped (msg : List Char) (err : BumpError)
deriving DecidableEq

/-- The `Version` struct: the three named integer release components. -/
structure Version where
  majorRelease : Int
  minorRelease : Int
  bugFixRelease : Int
deriving DecidableEq

/-- Numeric value of a decimal digit character. -/
def digitVal (c : Char) : Nat := c.toNat - 48

/-- Value of a run of decimal digit characters, most significant first. -/
def digitsToNat (l : List Char) : Nat := l.foldl (fun a c => a * 10 + digitVal c) 0

/-- The decimal digit character for `n` (clamped to 9 above). -/
def digitChar (n : Nat) : Char :=
  if n = 0 then '0' else if n = 1 then '1' else if n = 2 then '2' else if n = 3 then '3'
  else if n = 4 then '4' else if n = 5 then '5' else if n = 6 then '6' else if n = 7 then '7'
  else if n = 8 then '8' else '9'

/-- Fuelled decimal printer for naturals, as used by `fmt.Sprintf("%d", _)`. -/
def natToCharsAux : Nat → Nat → List Char
  | 0, _ => []
  | fuel + 1, n =>
    if n < 10 then [digitChar n] else natToCharsAux fuel (n / 10) ++ [digitChar (n % 10)]

/-- Decimal representation of a natural number. -/
def natToChars (n : Nat) : List Char := natToCharsAux (n + 1) n

/-- Decimal representation of an integer, as printed by `fmt.Sprintf("%d", _)`. -/
def intToChars (i : Int) : List Char :=
  if i < 0 then '-' :: natToChars (-i).toNat else natToChars i.toNat

/-- The `Version.String` method: `fmt.Sprintf("v%d.%d.%d", major, minor, bugfix)`. -/
def Version.String (v : Version) : List Char :=
  'v' :: (intToChars v.majorRelease ++ '.' ::
    (intToChars v.minorRelease ++ '.' :: intToChars v.bugFixRelease))

/-- Two's-complement wraparound of a 64-bit signed integer value. -/
def int64Wrap (n : Int) : Int :=
  (n + 9223372036854775808) % 18446744073709551616 - 9223372036854775808

/-- The `incrementMajor` method: `major++; minor = 0; bugfix = 0`. -/
def Version.incrementMajor (v : Version) : Version :=
  ⟨int64Wrap (v.majorRelease + 1), 0, 0⟩

/-- The `incrementMinor` method: `minor++; bugfix = 0`. -/
def Version.incrementMinor (v : Version) : Version :=
  ⟨v.majorRelease, int64Wrap (v.minorRelease + 1), 0⟩

/-- The `incrementBugFix` method: `bugfix++`. -/
def Version.incrementBugFix (v : Version) : Version :=
  ⟨v.majorRelease, v.minorRelease, int64Wrap (v.bugFixRelease + 1)⟩

/-- The `incrementVersion` function. -/
def incrementVersion (latestVersion : Version) (major minor : Bool) :
    Version × Option BumpError :=
  if major && minor then (latestVersion, some .cannotIncrementMajAndMin)
  else if major then (latestVersion.incrementMajor, none)
  else if minor then (latestVersion.incrementMinor, none)
  else (latestVersion.incrementBugFix, none)

/-- Splitting on the dot character, as `strings.Split(s, ".")` does. -/
def splitOnDot : List Char → List (List Char)
  | [] => [[]]
  | c :: rest =>
    if c = '.' then [] :: splitOnDot rest
    else
      match splitOnDot rest with
      | [] => [[c]]
      | p :: ps => (c :: p) :: ps

/-- Inverse of `splitOnDot`: interleave the parts with dots. -/
def joinDots : List (List Char) → List Char
  | [] => []
  | [p] => p
  | p :: ps => p ++ '.' :: joinDots ps

/-- A nonempty run of decimal digit characters, `[0-9]+`. -/
def isDigitRun (l : List Char) : Bool := !l.isEmpty && l.all Char.isDigit

/-- Whether the part after the leading `v` consists of exactly three
dot-separated digit runs, `[0-9]+\.[0-9]+\.[0-9]+`. -/
def versionBody (rest : List Char) : Bool :=
  match splitOnDot rest with
  | [a, b, cc] => isDigitRun a && isDigitRun b && isDigitRun cc
  | _ => false

/-- Whether a string matches the pattern `^v[0-9]+\.[0-9]+\.[0-9]+$` compiled
in `validateVersionFormat`. -/
def matchesVersionFormat (s : List Char) : Bool :=
  match s with
  | [] => false
  | c :: rest => c == 'v' && versionBody rest

/-- The `validateVersionFormat` function: `nil` iff the regex matches, else
`ErrVersionFormat`. -/
def validateVersionFormat (version : List Char) : Option BumpError :=
  if matchesVersionFormat version then none else some .versionFormat

/-- `strings.TrimPrefix(version, "v")`. -/
def trimPrefixV (version : List Char) : List Char :=
  match version with
  | [] => []
  | c :: rest => if c = 'v' then rest else version

/-- Sign handling of `strconv.Atoi` (`strconv.ParseInt` base 10). -/
def splitSign (s : List Char) : Bool × List Char :=
  match s with
  | [] => (false, [])
  | c :: rest => if c = '-' then (true, rest) else if c = '+' then (false, rest) else (false, s)

/-- The `strconv.Atoi` conversion for a 64-bit `int`: syntax error on an empty
or non-digit body, range error (with a clamped value) outside int64 range. -/
def Atoi (s : List Char) : Int × Option BumpError :=
  let neg := (splitSign s).1
  let digits := (splitSign s).2
  if digits.isEmpty || !digits.all Char.isDigit then (0, some .atoiSyntaxErr)
  else if neg then
    (if (digitsToNat digits : Int) ≤ 9223372036854775808 then (-(digitsToNat digits : Int), none)
     else (-9223372036854775808, some .atoiRange))
  else
    (if (digitsToNat digits : Int) ≤ 9223372036854775807 then ((digitsToNat digits : Int), none)
     else (9223372036854775807, some .atoiRange))

/-- The conversion loop of `CastToVersion`: convert each element in order,
returning the first conversion error. -/
def atoiList : List (List Char) → Except BumpError (List Int)
  | [] => .ok []
  | s :: rest =>
    match Atoi s with
    | (_, some e) => .error e
    | (i, none) =>
      match atoiList rest with
      | .error e => .error e
      | .ok is => .ok (i :: is)

/-- The `CastToVersion` function: validate, trim the `v`, split on dots,
convert each component, and build the `Version` from elements 0, 1, 2. -/
def CastToVersion (version : List Char) : Version × Option BumpError :=
  match validateVersionFormat version with
  | some e => (⟨0, 0, 0⟩, some e)
  | none =>
    let stringElements := splitOnDot (trimPrefixV version)
    match atoiList stringElements with
    | .error e => (⟨0, 0, 0⟩, some e)
    | .ok intElements =>
      (⟨intElements.getD 0 0, intElements.getD 1 0, intElements.getD 2 0⟩, none)

/-- Maximal runs of digit respectively non-digit characters of a string. -/
def chunkify : List Char → List (List Char)
  | [] => []
  | c :: rest =>
    match chunkify rest with
    | [] => [[c]]
    | [] :: rs => [c] :: [] :: rs
    | (d :: ds) :: rs =>
      if c.isDigit == d.isDigit then (c :: d :: ds) :: rs
      else [c] :: (d :: ds) :: rs

/-- Three-way comparison of naturals. -/
def cmpNat (a b : Nat) : Ordering :=
  if a < b then .lt else if a = b then .eq else .gt

/-- Three-way comparison of characters by code point. -/
def cmpChar (a b : Char) : Ordering :=
  if a < b then .lt else if a = b then .eq else .gt

/-- Lexicographic three-way comparison of character lists. -/
def lexCompare : List Char → List Char → Ordering
  | [], [] => .eq
  | [], _ :: _ => .lt
  | _ :: _, [] => .gt
  | a :: as, b :: bs =>
    match cmpChar a b with
    | .eq => lexCompare as bs
    | o => o

/-- Modelled from the spec: comparison of one chunk of a natural-ordering
split — two digit runs are compared as integers, anything else
lexicographically.  The `natsort` dependency used by `getLatestVersionTag`
is not part of this repository. -/
def cmpChunk (a b : List Char) : Ordering :=
  if isDigitRun a && isDigitRun b then cmpNat (digitsToNat a) (digitsToNat b)
  else lexCompare a b

/-- Chunkwise lexicographic comparison of chunk lists. -/
def cmpChunks : List (List Char) → List (List Char) → Ordering
  | [], [] => .eq
  | [], _ :: _ => .lt
  | _ :: _, [] => .gt
  | a :: as, b :: bs =>
    match cmpChunk a b with
    | .eq => cmpChunks as bs
    | o => o

/-- Modelled from the spec: natural (human) three-way string comparison,
digit runs compared as integers rather than lexicographically. -/
def natCompare (s t : List Char) : Ordering := cmpChunks (chunkify s) (chunkify t)

/-- Natural strict order on strings. -/
def natLess (s t : List Char) : Bool := natCompare s t == Ordering.lt

/-- Ordered insertion with respect to `natLess`. -/
def insertNat (x : List Char) : List (List Char) → List (List Char)
  | [] => [x]
  | y :: ys => if natLess x y then x :: y :: ys else y :: insertNat x ys

/-- Modelled from the spec: `natsort.Sort`, an ascending sort of the list
under natural string ordering. -/
def natsortSort : List (List Char) → List (List Char)
  | [] => []
  | x :: xs => insertNat x (natsortSort xs)

/-- Last element of a list of strings (default empty), as `l[len(l)-1]`. -/
def lastD : List (List Char) → List Char
  | [] => []
  | [x] => x
  | _ :: x :: xs => lastD (x :: xs)

/-- The `getLatestVersionTag` function: filter the tags through the format
validator, fail with `ErrNoVersionTagsFound` if none is left, otherwise
natural-sort the survivors and parse the last (greatest) one. -/
def getLatestVersionTag (tagList : List (List Char)) : Version × Option BumpError :=
  let versionList := tagList.filter (fun t => (validateVersionFormat t).isNone)
  if versionList.isEmpty then (⟨0, 0, 0⟩, some .noVersionTagsFound)
  else
    let latestVersionStr := lastD (natsortSort versionList)
    match CastToVersion latestVersionStr with
    | (_, some e) => (⟨0, 0, 0⟩, some e)
    | (latestVersion, none) => (latestVersion, none)

/-- Kind of a remote reference as reported by `remote.List`. -/
inductive RefKind where
  | tagRef
  | branchRef
  | headRef
  | noteRef
deriving DecidableEq

/-- A remote reference: its kind and the short name `r.Name().Short()`. -/
structure Ref where
  kind : RefKind
  shortName : List Char
deriving DecidableEq

/-- Outcomes of the effectful go-git collaborator calls made by the program:
`repo.Remote("origin")`, `remote.List`, `repo.Head`, `repo.CreateTag`,
`repo.Push` and `repo.DeleteTag`.  A `some msg` field means that call fails
with that underlying error. -/
structure Repo where
  remoteOriginErr : Option (List Char)
  listErr : Option (List Char)
  refs : List Ref
  headErr : Option (List Char)
  createErr : Option (List Char)
  pushErr : Option (List Char)
  deleteErr : Option (List Char)
deriving DecidableEq

/-- Wrap message used when `repo.Head` fails in `tag`. -/
def headMsg : List Char := "unable to get HEAD from the opened repo".data

/-- Wrap message used when `repo.CreateTag` fails in `tag`. -/
def createMsg : List Char :=
  ("unable to create tag from the repo head hash and newly created tag version number." ++
   " tag may already exist locally.").data

/-- Wrap message used when `repo.Push` fails and the rollback delete succeeds. -/
def pushMsg : List Char := "unable to push new tag to remote repo".data

/-- Wrap message used when `repo.Push` fails and the rollback delete also
fails: it states the push failure and that manual cleanup may be needed. -/
def rollbackMsg : List Char :=
  ("push local tag to remote failed, so attempted to rollback local tag." ++
   " rollback local tag failed. May require manual cleanup.").data

/-- The `tag` function: resolve HEAD, create the tag locally, push all tags;
on push failure delete the just-created local tag, and report the rollback
failure (wrapping the delete error) if that delete fails too. -/
def tag (repo : Repo) (_newTagVersion : Version) : Option BumpError :=
  match repo.headErr with
  | some e => some (.wrapped headMsg (.gitError e))
  | none =>
    match repo.createErr with
    | some e => some (.wrapped createMsg (.gitError e))
    | none =>
      match repo.pushErr with
      | none => none
      | some e =>
        match repo.deleteErr with
        | some rollbackErr => some (.wrapped rollbackMsg (.gitError rollbackErr))
        | none => some (.wrapped pushMsg (.gitError e))

/-- Wrap message used when `repo.Remote("origin")` fails. -/
def accessRemoteMsg : List Char := "unable to access remote repo".data

/-- Wrap message used when `remote.List` fails. -/
def listRefsMsg : List Char := "unable to list references from remote repo".data

/-- The `getRemoteGitTags` function: list all remote references, fail with
`ErrNoTagsFound` when there are none at all, otherwise return every
reference's short name (of any kind). -/
def getRemoteGitTags (repo : Repo) : List (List Char) × Option BumpError :=
  match repo.remoteOriginErr with
  | some e => ([], some (.wrapped accessRemoteMsg (.gitError e)))
  | none =>
    match repo.listErr with
    | some e => ([], some (.wrapped listRefsMsg (.gitError e)))
    | none =>
      if repo.refs.isEmpty then ([], some .noTagsFound)
      else (repo.refs.map Ref.shortName, none)

/-- Wrap message used when `getRemoteGitTags` fails in `BumpVersion`. -/
def getTagsMsg : List Char := "Unable to get remote git tags from the repo".data

/-- Wrap message used when `getLatestVersionTag` fails (other than with
`ErrNoVersionTagsFound`) in `BumpVersion`. -/
def latestTagMsg : List Char := "unable to get latest version tag from the tag list".data

/-- The `BumpVersion` orchestration.  The second component records the
`Version` handed to `tag` (the publisher), `none` when `tag` is never
called. -/
def BumpVersion (repo : Repo) (major minor : Bool) : Option BumpError × Option Version :=
  match getRemoteGitTags repo with
  | (_, some e) => (some (.wrapped getTagsMsg e), none)
  | (tagList, none) =>
    match getLatestVersionTag tagList with
    | (_, some e) =>
      if e = .noVersionTagsFound then (tag repo ⟨0, 0, 0⟩, some ⟨0, 0, 0⟩)
      else (some (.wrapped latestTagMsg e), none)
    | (latestVersionTag, none) =>
      match incrementVersion latestVersionTag major minor with
      | (_, some e) => (some e, none)
      | (incrementedVersionTag, none) =>
        (tag repo incrementedVersionTag, some incrementedVersionTag)

/-- The numeric (major, minor, bugfix) components of a version-format string,
read as unbounded naturals. -/
def versionTuple (s : List Char) : Nat × Nat × Nat :=
  match splitOnDot (trimPrefixV s) with
  | [a, b, c] => (digitsToNat a, digitsToNat b, digitsToNat c)
  | _ => (0, 0, 0)

/-- Lexicographic three-way comparison of component triples. -/
def cmpTuple (a b : Nat × Nat × Nat) : Ordering :=
  match cmpNat a.1 b.1 with
  | .eq =>
    match cmpNat a.2.1 b.2.1 with
    | .eq => cmpNat a.2.2 b.2.2
    | o => o
  | o => o

/-- Lexicographic strict order on component triples. -/
def tupleLtP (a b : Nat × Nat × Nat) : Prop :=
  a.1 < b.1 ∨ (a.1 = b.1 ∧ (a.2.1 < b.2.1 ∨ (a.2.1 = b.2.1 ∧ a.2.2 < b.2.2)))

/-- Lexicographic order on component triples, as a reflexive relation. -/
def tupleLe (a b : Nat × Nat × Nat) : Prop := cmpTuple a b ≠ Ordering.gt

/-- The `Version` with the given components. -/
def tupleVersion (t : Nat × Nat × Nat) : Version := ⟨(t.1 : Int), (t.2.1 : Int), (t.2.2 : Int)⟩

/-- All three components fit in a (64-bit) Go `int`. -/
def tupleInRange (t : Nat × Nat × Nat) : Prop :=
  t.1 ≤ 9223372036854775807 ∧ t.2.1 ≤ 9223372036854775807 ∧ t.2.2 ≤ 9223372036854775807

/-- An integer representable by a 64-bit Go `int`. -/
def inInt64Range (n : Int) : Prop :=
  -9223372036854775808 ≤ n ∧ n ≤ 9223372036854775807

/-- A nonempty all-digit string, `[0-9]+`, as a proposition. -/
def IsDigitRunP (l : List Char) : Prop := l ≠ [] ∧ ∀ c ∈ l, c.isDigit = true

/-- The regular expression `^v[0-9]+\.[0-9]+\.[0-9]+$` of the spec, read
declaratively: a literal `v`, then three nonempty digit runs separated by
dots, with nothing else before or after. -/
def MatchesVersionRegex (s : List Char) : Prop :=
  ∃ a b c, s = 'v' :: (a ++ '.' :: (b ++ '.' :: c)) ∧
    IsDigitRunP a ∧ IsDigitRunP b ∧ IsDigitRunP c

/-- Natural ordering agrees with this relation on version strings: ordering
of the numeric component triples. -/
def VLe (s t : List Char) : Prop := tupleLe (versionTuple s) (versionTuple t)

instance (a b : Nat × Nat × Nat) : Decidable (tupleLe a b) := by
  unfold tupleLe
  infer_instance

instance (t : Nat × Nat × Nat) : Decidable (tupleInRange t) := by
  unfold tupleInRange
  infer_instance

instance (n : Int) : Decidable (inInt64Range n) := by
  unfold inInt64Range
  infer_instance

instance (s t : List Char) : Decidable (VLe s t) := by
  unfold VLe
  infer_instance

end Bump

deriving instance DecidableEq for Except

namespace Bump

/-! ### Ordering lemmas for `cmpNat` and `cmpTuple` -/

theorem cmpNat_eq_lt {a b : Nat} : cmpNat a b = Ordering.lt ↔ a < b := by
  unfold cmpNat
  split_ifs with h1 h2 <;> simp <;> omega

theorem cmpNat_eq_eq {a b : Nat} : cmpNat a b = Ordering.eq ↔ a = b := by
  unfold cmpNat
  split_ifs with h1 h2 <;> simp <;> omega

theorem cmpNat_eq_gt {a b : Nat} : cmpNat a b = Ordering.gt ↔ b < a := by
  unfold cmpNat
  split_ifs with h1 h2 <;> simp <;> omega

theorem cmpTuple_eq_lt {a b : Nat × Nat × Nat} : cmpTuple a b = Ordering.lt ↔ tupleLtP a b := by
  unfold cmpTuple tupleLtP
  rcases h1 : cmpNat a.1 b.1 <;> rcases h2 : cmpNat a.2.1 b.2.1 <;>
    simp_all [cmpNat_eq_lt, cmpNat_eq_eq, cmpNat_eq_gt] <;> omega

theorem cmpTuple_eq_eq {a b : Nat × Nat × Nat} : cmpTuple a b = Ordering.eq ↔ a = b := by
  unfold cmpTuple
  rcases h1 : cmpNat a.1 b.1 <;> rcases h2 : cmpNat a.2.1 b.2.1 <;>
    simp_all [cmpNat_eq_lt, cmpNat_eq_eq, cmpNat_eq_gt, Prod.ext_iff] <;> omega

theorem cmpTuple_eq_gt {a b : Nat × Nat × Nat} : cmpTuple a b = Ordering.gt ↔ tupleLtP b a := by
  unfold cmpTuple tupleLtP
  rcases h1 : cmpNat a.1 b.1 <;> rcases h2 : cmpNat a.2.1 b.2.1 <;>
    simp_all [cmpNat_eq_lt, cmpNat_eq_eq, cmpNat_eq_gt] <;> omega

theorem tupleLe_iff {a b : Nat × Nat × Nat} : tupleLe a b ↔ ¬ tupleLtP b a := by
  unfold tupleLe
  exact not_congr cmpTuple_eq_gt

theorem tupleLe_refl (a : Nat × Nat × Nat) : tupleLe a a := by
  rw [tupleLe_iff]
  unfold tupleLtP
  omega

theorem tupleLe_trans {a b c : Nat × Nat × Nat} (h1 : tupleLe a b) (h2 : tupleLe b c) :
    tupleLe a c := by
  rw [tupleLe_iff] at h1 h2 ⊢
  unfold tupleLtP at h1 h2 ⊢
  omega

theorem tupleLe_antisymm {a b : Nat × Nat × Nat} (h1 : tupleLe a b) (h2 : tupleLe b a) :
    a = b := by
  rw [tupleLe_iff] at h1 h2
  unfold tupleLtP at h1 h2
  obtain ⟨a1, a2, a3⟩ := a
  obtain ⟨b1, b2, b3⟩ := b
  simp_all [Prod.ext_iff]
  omega

theorem tupleLtP_le {a b : Nat × Nat × Nat} (h : tupleLtP a b) : tupleLe a b := by
  rw [tupleLe_iff]
  unfold tupleLtP at h ⊢
  omega

theorem VLe_refl (a : List Char) : VLe a a := tupleLe_refl _

theorem VLe_trans {a b c : List Char} (h1 : VLe a b) (h2 : VLe b c) : VLe a c :=
  tupleLe_trans h1 h2

end Bump

namespace Bump

/-! ### Digit characters and decimal printing -/

theorem digitChar_isDigit {n : Nat} (h : n < 10) : (digitChar n).isDigit = true := by
  interval_cases n <;> decide

theorem digitVal_digitChar {n : Nat} (h : n < 10) : digitVal (digitChar n) = n := by
  interval_cases n <;> decide

theorem isDigit_ne {c : Char} (h : c.isDigit = true) :
    c ≠ '.' ∧ c ≠ 'v' ∧ c ≠ '-' ∧ c ≠ '+' := by
  refine ⟨?_, ?_, ?_, ?_⟩ <;> rintro rfl <;> exact absurd h (by decide)

theorem digitRun_no_dot {l : List Char} (h : ∀ c ∈ l, c.isDigit = true) : '.' ∉ l :=
  fun hm => absurd (h _ hm) (by decide)

theorem digitsToNat_singleton (c : Char) : digitsToNat [c] = digitVal c := by
  simp [digitsToNat]

theorem digitsToNat_append_singleton (l : List Char) (c : Char) :
    digitsToNat (l ++ [c]) = digitsToNat l * 10 + digitVal c := by
  unfold digitsToNat
  rw [List.foldl_append]
  rfl

theorem natToCharsAux_all_digit :
    ∀ fuel n : Nat, ∀ c ∈ natToCharsAux fuel n, c.isDigit = true := by
  intro fuel
  induction fuel with
  | zero => intro n c hc; simp [natToCharsAux] at hc
  | succ f ih =>
    intro n c hc
    unfold natToCharsAux at hc
    split_ifs at hc with h
    · simp at hc
      subst hc
      exact digitChar_isDigit h
    · rcases List.mem_append.mp hc with h2 | h2
      · exact ih _ _ h2
      · simp at h2
        subst h2
        exact digitChar_isDigit (Nat.mod_lt _ (by omega))

theorem natToCharsAux_ne_nil {f n : Nat} : natToCharsAux (f + 1) n ≠ [] := by
  unfold natToCharsAux
  split_ifs <;> simp

theorem natToCharsAux_toNat :
    ∀ fuel n : Nat, n < 10 ^ fuel → digitsToNat (natToCharsAux fuel n) = n := by
  intro fuel
  induction fuel with
  | zero =>
    intro n h
    interval_cases n
    rfl
  | succ f ih =>
    intro n h
    unfold natToCharsAux
    split_ifs with h10
    · rw [digitsToNat_singleton, digitVal_digitChar h10]
    · have hdiv : n / 10 < 10 ^ f := by
        rw [Nat.pow_succ] at h
        omega
      rw [digitsToNat_append_singleton, ih _ hdiv,
        digitVal_digitChar (Nat.mod_lt _ (by omega))]
      omega

theorem lt_ten_pow (n : Nat) : n < 10 ^ (n + 1) := by
  induction n with
  | zero => norm_num
  | succ k ih =>
    rw [Nat.pow_succ]
    have h1 : 1 ≤ 10 ^ (k + 1) := Nat.one_le_pow _ _ (by omega)
    omega

theorem digitsToNat_natToChars (n : Nat) : digitsToNat (natToChars n) = n :=
  natToCharsAux_toNat _ _ (lt_ten_pow n)

theorem natToChars_all_digit (n : Nat) : ∀ c ∈ natToChars n, c.isDigit = true :=
  natToCharsAux_all_digit _ _

theorem natToChars_ne_nil (n : Nat) : natToChars n ≠ [] := natToCharsAux_ne_nil

end Bump

namespace Bump

/-! ### Splitting on dots and the format regex -/

theorem splitOnDot_ne_nil (s : List Char) : splitOnDot s ≠ [] := by
  induction s with
  | nil => simp [splitOnDot]
  | cons c rest ih =>
    unfold splitOnDot
    split_ifs with h
    · simp
    · rcases hs : splitOnDot rest with _ | ⟨p, ps⟩ <;> simp

theorem joinDots_cons_cons (p q : List Char) (ps : List (List Char)) :
    joinDots (p :: q :: ps) = p ++ '.' :: joinDots (q :: ps) := rfl

theorem joinDots_splitOnDot (s : List Char) : joinDots (splitOnDot s) = s := by
  induction s with
  | nil => rfl
  | cons c rest ih =>
    unfold splitOnDot
    split_ifs with h
    · subst h
      rcases hs : splitOnDot rest with _ | ⟨p, ps⟩
      · exact absurd hs (splitOnDot_ne_nil rest)
      · rw [hs] at ih
        rw [joinDots_cons_cons]
        simp [ih]
    · rcases hs : splitOnDot rest with _ | ⟨p, ps⟩
      · exact absurd hs (splitOnDot_ne_nil rest)
      · rw [hs] at ih
        rcases ps with _ | ⟨q, qs⟩
        · show joinDots [c :: p] = c :: rest
          show c :: p = c :: rest
          rw [show joinDots [p] = p from rfl] at ih
          rw [ih]
        · rw [joinDots_cons_cons]
          rw [joinDots_cons_cons] at ih
          rw [List.cons_append]
          rw [ih]

theorem splitOnDot_parts_no_dot (s : List Char) : ∀ p ∈ splitOnDot s, '.' ∉ p := by
  induction s with
  | nil =>
    intro p hp
    simp [splitOnDot] at hp
    subst hp
    simp
  | cons c rest ih =>
    intro p hp
    unfold splitOnDot at hp
    split_ifs at hp with h
    · rcases List.mem_cons.mp hp with rfl | hp2
      · simp
      · exact ih p hp2
    · rcases hs : splitOnDot rest with _ | ⟨q, qs⟩
      · exact absurd hs (splitOnDot_ne_nil rest)
      · rw [hs] at hp
        rcases List.mem_cons.mp hp with rfl | hp2
        · intro hmem
          rcases List.mem_cons.mp hmem with h1 | h2
          · exact h h1.symm
          · exact ih q (by rw [hs]; exact List.mem_cons_self _ _) h2
        · exact ih p (by rw [hs]; exact List.mem_cons_of_mem _ hp2)

theorem splitOnDot_no_dot {a : List Char} (h : '.' ∉ a) : splitOnDot a = [a] := by
  induction a with
  | nil => rfl
  | cons c rest ih =>
    have hc : ¬ (c = '.') := fun he => h (by rw [he]; exact List.mem_cons_self _ _)
    have hr : '.' ∉ rest := fun hm => h (List.mem_cons_of_mem _ hm)
    unfold splitOnDot
    rw [if_neg hc, ih hr]

theorem splitOnDot_append {a t : List Char} (h : '.' ∉ a) :
    splitOnDot (a ++ '.' :: t) = a :: splitOnDot t := by
  induction a with
  | nil => simp [splitOnDot]
  | cons c rest ih =>
    have hc : ¬ (c = '.') := fun he => h (by rw [he]; exact List.mem_cons_self _ _)
    have hr : '.' ∉ rest := fun hm => h (List.mem_cons_of_mem _ hm)
    show splitOnDot (c :: (rest ++ '.' :: t)) = (c :: rest) :: splitOnDot t
    conv_lhs => unfold splitOnDot
    rw [if_neg hc, ih hr]

theorem isDigitRun_iff {l : List Char} : isDigitRun l = true ↔ IsDigitRunP l := by
  unfold isDigitRun IsDigitRunP
  simp [List.all_eq_true, List.isEmpty_iff]

theorem matchesVersionFormat_cons (c : Char) (rest : List Char) :
    matchesVersionFormat (c :: rest) = ((c == 'v') && versionBody rest) := rfl

theorem versionBody_three {rest a b cc : List Char} (hs : splitOnDot rest = [a, b, cc]) :
    versionBody rest = (isDigitRun a && isDigitRun b && isDigitRun cc) := by
  unfold versionBody
  rw [hs]

theorem matchesVersionFormat_iff {s : List Char} :
    matchesVersionFormat s = true ↔ MatchesVersionRegex s := by
  constructor
  · intro h
    rcases s with _ | ⟨c, rest⟩
    · simp [matchesVersionFormat] at h
    · rw [matchesVersionFormat_cons] at h
      simp only [Bool.and_eq_true, beq_iff_eq] at h
      obtain ⟨rfl, hbody⟩ := h
      rcases hs : splitOnDot rest with _ | ⟨a, _ | ⟨b, _ | ⟨cc, _ | ⟨d, ds⟩⟩⟩⟩ <;>
        unfold versionBody at hbody <;> rw [hs] at hbody <;> simp at hbody
      obtain ⟨⟨ha, hb⟩, hcc⟩ := hbody
      have hj := joinDots_splitOnDot rest
      rw [hs] at hj
      rw [joinDots_cons_cons, joinDots_cons_cons] at hj
      refine ⟨a, b, cc, ?_, ?_, ?_, ?_⟩
      · rw [← hj]
        rfl
      · exact isDigitRun_iff.mp ha
      · exact isDigitRun_iff.mp hb
      · exact isDigitRun_iff.mp hcc
  · rintro ⟨a, b, cc, rfl, ha, hb, hcc⟩
    have hsplit : splitOnDot (a ++ '.' :: (b ++ '.' :: cc)) = [a, b, cc] := by
      rw [splitOnDot_append (digitRun_no_dot ha.2), splitOnDot_append (digitRun_no_dot hb.2),
        splitOnDot_no_dot (digitRun_no_dot hcc.2)]
    rw [matchesVersionFormat_cons, versionBody_three hsplit]
    simp [isDigitRun_iff.mpr ha, isDigitRun_iff.mpr hb, isDigitRun_iff.mpr hcc]

theorem validateVersionFormat_eq_none {s : List Char} :
    validateVersionFormat s = none ↔ matchesVersionFormat s = true := by
  unfold validateVersionFormat
  split_ifs with h <;> simp [h]

theorem validateVersionFormat_isNone {s : List Char} :
    (validateVersionFormat s).isNone = matchesVersionFormat s := by
  unfold validateVersionFormat
  split_ifs with h <;> simp [h]

theorem trimPrefixV_v (x : List Char) : trimPrefixV ('v' :: x) = x := by
  simp [trimPrefixV]

theorem versionTuple_decomp {a b c : List Char} (ha : '.' ∉ a) (hb : '.' ∉ b) (hc : '.' ∉ c) :
    versionTuple ('v' :: (a ++ '.' :: (b ++ '.' :: c))) =
      (digitsToNat a, digitsToNat b, digitsToNat c) := by
  unfold versionTuple
  rw [trimPrefixV_v, splitOnDot_append ha, splitOnDot_append hb, splitOnDot_no_dot hc]

end Bump

namespace Bump

/-! ### `Atoi` and `CastToVersion` -/

theorem splitSign_digit (d : Char) (tl : List Char) (hd : d.isDigit = true) :
    splitSign (d :: tl) = (false, d :: tl) := by
  obtain ⟨_, _, h3, h4⟩ := isDigit_ne hd
  simp [splitSign, h3, h4]

theorem Atoi_digitRun {l : List Char} (hne : l ≠ []) (hall : ∀ c ∈ l, c.isDigit = true)
    (hle : digitsToNat l ≤ 9223372036854775807) :
    Atoi l = ((digitsToNat l : Int), none) := by
  rcases l with _ | ⟨d, tl⟩
  · exact absurd rfl hne
  · have hsp := splitSign_digit d tl (hall d (List.mem_cons_self _ _))
    have hallb : (d :: tl).all Char.isDigit = true := List.all_eq_true.mpr hall
    have hcast : (digitsToNat (d :: tl) : Int) ≤ 9223372036854775807 := by exact_mod_cast hle
    simp [Atoi, hsp, hallb, hcast]

theorem Atoi_err {l : List Char} {e : BumpError} (h : (Atoi l).2 = some e) :
    e = .atoiSyntaxErr ∨ e = .atoiRange := by
  simp only [Atoi] at h
  split_ifs at h <;> simp_all

theorem atoiList_three {a b c : List Char} {x y z : Int}
    (hA : Atoi a = (x, none)) (hB : Atoi b = (y, none)) (hC : Atoi c = (z, none)) :
    atoiList [a, b, c] = .ok [x, y, z] := by
  simp [atoiList, hA, hB, hC]

theorem atoiList_err {ps : List (List Char)} {e : BumpError} (h : atoiList ps = .error e) :
    e = .atoiSyntaxErr ∨ e = .atoiRange := by
  induction ps with
  | nil => simp [atoiList] at h
  | cons s rest ih =>
    unfold atoiList at h
    rcases hA : Atoi s with ⟨i, oe⟩
    rw [hA] at h
    rcases oe with _ | e1
    · rcases hr : atoiList rest with e2 | is
      · rw [hr] at h
        simp at h
        subst h
        exact ih hr
      · rw [hr] at h
        simp at h
    · simp at h
      subst h
      exact Atoi_err (l := s) (by rw [hA])

theorem CastToVersion_valid {s : List Char} (hs : matchesVersionFormat s = true)
    (h1 : (versionTuple s).1 ≤ 9223372036854775807)
    (h2 : (versionTuple s).2.1 ≤ 9223372036854775807)
    (h3 : (versionTuple s).2.2 ≤ 9223372036854775807) :
    CastToVersion s = (tupleVersion (versionTuple s), none) := by
  obtain ⟨a, b, c, rfl, ha, hb, hc⟩ := matchesVersionFormat_iff.mp hs
  have hna : '.' ∉ a := digitRun_no_dot ha.2
  have hnb : '.' ∉ b := digitRun_no_dot hb.2
  have hnc : '.' ∉ c := digitRun_no_dot hc.2
  have htup := versionTuple_decomp hna hnb hnc
  rw [htup] at h1 h2 h3
  have hval : validateVersionFormat ('v' :: (a ++ '.' :: (b ++ '.' :: c))) = none :=
    validateVersionFormat_eq_none.mpr hs
  have hsplit : splitOnDot (trimPrefixV ('v' :: (a ++ '.' :: (b ++ '.' :: c)))) = [a, b, c] := by
    rw [trimPrefixV_v, splitOnDot_append hna, splitOnDot_append hnb, splitOnDot_no_dot hnc]
  have hAa := Atoi_digitRun ha.1 ha.2 h1
  have hAb := Atoi_digitRun hb.1 hb.2 h2
  have hAc := Atoi_digitRun hc.1 hc.2 h3
  rw [htup]
  simp [CastToVersion, hval, hsplit, atoiList_three hAa hAb hAc, tupleVersion, List.getD]

end Bump

namespace Bump

/-! ### Chunks of the natural ordering on version strings -/
theorem chunkify_cons_eq (c : Char) (rest : List Char) :
    chunkify (c :: rest) =
      (match chunkify rest with
       | [] => [[c]]
       | [] :: rs => [c] :: [] :: rs
       | (d :: ds) :: rs =>
         if c.isDigit == d.isDigit then (c :: d :: ds) :: rs
         else [c] :: (d :: ds) :: rs) := rfl

theorem chunkify_cons_same {c d : Char} {rest : List Char} {ds : List Char}
    {rs : List (List Char)} (h : chunkify rest = (d :: ds) :: rs)
    (hdig : (c.isDigit == d.isDigit) = true) :
    chunkify (c :: rest) = (c :: d :: ds) :: rs := by
  rw [chunkify_cons_eq, h]
  simp [hdig]

theorem chunkify_cons_diff {c d : Char} {rest : List Char} {ds : List Char}
    {rs : List (List Char)} (h : chunkify rest = (d :: ds) :: rs)
    (hdig : (c.isDigit == d.isDigit) = false) :
    chunkify (c :: rest) = [c] :: (d :: ds) :: rs := by
  rw [chunkify_cons_eq, h]
  simp [hdig]

theorem chunkify_cons_ex (x : Char) (xs : List Char) :
    ∃ ds rs, chunkify (x :: xs) = (x :: ds) :: rs := by
  rcases h : chunkify xs with _ | ⟨chunk, rest⟩
  · refine ⟨[], [], ?_⟩
    rw [chunkify_cons_eq, h]
  · rcases chunk with _ | ⟨d, ds⟩
    · refine ⟨[], [] :: rest, ?_⟩
      rw [chunkify_cons_eq, h]
    · by_cases hdig : (x.isDigit == d.isDigit) = true
      · exact ⟨d :: ds, rest, chunkify_cons_same h hdig⟩
      · exact ⟨[], (d :: ds) :: rest,
          chunkify_cons_diff h (Bool.not_eq_true _ ▸ hdig)⟩

theorem chunkify_digit_append {a rest : List Char} (hne : a ≠ [])
    (ha : ∀ x ∈ a, x.isDigit = true)
    (hrest : rest = [] ∨ ∃ d tl, rest = d :: tl ∧ d.isDigit = false) :
    chunkify (a ++ rest) = a :: chunkify rest := by
  induction a with
  | nil => exact absurd rfl hne
  | cons x a2 ih =>
    rcases a2 with _ | ⟨y, a3⟩
    · rcases hrest with rfl | ⟨d, tl, rfl, hd⟩
      · simp [chunkify]
      · show chunkify (x :: d :: tl) = [x] :: chunkify (d :: tl)
        obtain ⟨ds, rs, hdtl⟩ := chunkify_cons_ex d tl
        rw [chunkify_cons_diff hdtl ?hdig, hdtl]
        case hdig =>
          rw [ha x (List.mem_cons_self _ _), hd]
          rfl
    · have ih2 := ih (by simp) (fun z hz => ha z (List.mem_cons_of_mem _ hz))
      show chunkify (x :: ((y :: a3) ++ rest)) = (x :: y :: a3) :: chunkify rest
      have hy : ((y :: a3) ++ rest) = y :: (a3 ++ rest) := rfl
      rw [hy] at ih2 ⊢
      refine chunkify_cons_same ih2 ?_
      rw [ha x (List.mem_cons_self _ _),
        ha y (List.mem_cons_of_mem _ (List.mem_cons_self _ _))]
      rfl

theorem chunkify_nondigit_cons {c : Char} {rest : List Char} (hc : c.isDigit = false)
    (hrest : ∃ d tl, rest = d :: tl ∧ d.isDigit = true) :
    chunkify (c :: rest) = [c] :: chunkify rest := by
  obtain ⟨d, tl, hr, hd⟩ := hrest
  obtain ⟨ds, rs, h⟩ := chunkify_cons_ex d tl
  rw [hr, chunkify_cons_diff h (by rw [hc, hd]; rfl), h]

theorem headDigit_of_digitRun {l : List Char} (hl : IsDigitRunP l) :
    ∃ d tl, l = d :: tl ∧ d.isDigit = true := by
  rcases l with _ | ⟨d, tl⟩
  · exact absurd rfl hl.1
  · exact ⟨d, tl, rfl, hl.2 d (List.mem_cons_self _ _)⟩

theorem chunkify_version {a b c : List Char} (ha : IsDigitRunP a) (hb : IsDigitRunP b)
    (hc : IsDigitRunP c) :
    chunkify ('v' :: (a ++ '.' :: (b ++ '.' :: c))) = [['v'], a, ['.'], b, ['.'], c] := by
  obtain ⟨c0, ctl, hceq, hc0⟩ := headDigit_of_digitRun hc
  obtain ⟨b0, btl, hbeq, hb0⟩ := headDigit_of_digitRun hb
  obtain ⟨a0, atl, haeq, ha0⟩ := headDigit_of_digitRun ha
  have h1 : chunkify c = [c] := by
    have h0 := chunkify_digit_append hc.1 hc.2 (Or.inl rfl)
    simpa [chunkify] using h0
  have h2 : chunkify ('.' :: c) = ['.'] :: [c] := by
    rw [chunkify_nondigit_cons (by decide) ⟨c0, ctl, hceq, hc0⟩, h1]
  have h3 : chunkify (b ++ '.' :: c) = b :: ['.'] :: [c] := by
    rw [chunkify_digit_append hb.1 hb.2 (Or.inr ⟨'.', c, rfl, by decide⟩), h2]
  have h4 : chunkify ('.' :: (b ++ '.' :: c)) = ['.'] :: b :: ['.'] :: [c] := by
    have hdec : b ++ '.' :: c = b0 :: (btl ++ '.' :: c) := by
      rw [hbeq]
      rfl
    rw [chunkify_nondigit_cons (by decide) ⟨b0, btl ++ '.' :: c, hdec, hb0⟩, h3]
  have h5 : chunkify (a ++ '.' :: (b ++ '.' :: c)) = a :: ['.'] :: b :: ['.'] :: [c] := by
    rw [chunkify_digit_append ha.1 ha.2 (Or.inr ⟨'.', b ++ '.' :: c, rfl, by decide⟩), h4]
  have hdeca : a ++ '.' :: (b ++ '.' :: c) = a0 :: (atl ++ '.' :: (b ++ '.' :: c)) := by
    rw [haeq]
    rfl
  rw [chunkify_nondigit_cons (by decide) ⟨a0, atl ++ '.' :: (b ++ '.' :: c), hdeca, ha0⟩, h5]

end Bump

namespace Bump

/-! ### Natural ordering agrees with numeric tuple ordering on version strings -/

theorem cmpChunk_digit {a b : List Char} (ha : isDigitRun a = true) (hb : isDigitRun b = true) :
    cmpChunk a b = cmpNat (digitsToNat a) (digitsToNat b) := by
  simp [cmpChunk, ha, hb]

theorem natCompare_valid {s t : List Char} (hs : matchesVersionFormat s = true)
    (ht : matchesVersionFormat t = true) :
    natCompare s t = cmpTuple (versionTuple s) (versionTuple t) := by
  obtain ⟨a1, b1, c1, rfl, ha1, hb1, hc1⟩ := matchesVersionFormat_iff.mp hs
  obtain ⟨a2, b2, c2, rfl, ha2, hb2, hc2⟩ := matchesVersionFormat_iff.mp ht
  rw [versionTuple_decomp (digitRun_no_dot ha1.2) (digitRun_no_dot hb1.2)
      (digitRun_no_dot hc1.2),
    versionTuple_decomp (digitRun_no_dot ha2.2) (digitRun_no_dot hb2.2)
      (digitRun_no_dot hc2.2)]
  unfold natCompare
  rw [chunkify_version ha1 hb1 hc1, chunkify_version ha2 hb2 hc2]
  have hvv : cmpChunk ['v'] ['v'] = Ordering.eq := by decide
  have hdd : cmpChunk ['.'] ['.'] = Ordering.eq := by decide
  have hA := cmpChunk_digit (isDigitRun_iff.mpr ha1) (isDigitRun_iff.mpr ha2)
  have hB := cmpChunk_digit (isDigitRun_iff.mpr hb1) (isDigitRun_iff.mpr hb2)
  have hC := cmpChunk_digit (isDigitRun_iff.mpr hc1) (isDigitRun_iff.mpr hc2)
  simp only [cmpChunks, hvv, hdd, hA, hB, hC, cmpTuple]
  rcases cmpNat (digitsToNat a1) (digitsToNat a2) <;>
    rcases cmpNat (digitsToNat b1) (digitsToNat b2) <;>
      rcases cmpNat (digitsToNat c1) (digitsToNat c2) <;> rfl

theorem beq_lt_iff (o : Ordering) : (o == Ordering.lt) = true ↔ o = Ordering.lt := by
  cases o <;> decide

theorem natLess_valid {s t : List Char} (hs : matchesVersionFormat s = true)
    (ht : matchesVersionFormat t = true) :
    natLess s t = true ↔ tupleLtP (versionTuple s) (versionTuple t) := by
  unfold natLess
  rw [natCompare_valid hs ht]
  exact (beq_lt_iff _).trans cmpTuple_eq_lt

end Bump

namespace Bump

/-! ### The natural sort and its maximum -/

theorem mem_insertNat {x z : List Char} : ∀ {l : List (List Char)},
    z ∈ insertNat x l ↔ z = x ∨ z ∈ l := by
  intro l
  induction l with
  | nil => simp [insertNat]
  | cons y ys ih =>
    unfold insertNat
    split_ifs with h <;> simp [List.mem_cons, ih]
    all_goals tauto

theorem mem_natsortSort {z : List Char} : ∀ {l : List (List Char)},
    z ∈ natsortSort l ↔ z ∈ l := by
  intro l
  induction l with
  | nil => simp [natsortSort]
  | cons y ys ih =>
    show z ∈ insertNat y (natsortSort ys) ↔ z ∈ y :: ys
    rw [mem_insertNat, ih]
    simp [List.mem_cons]

theorem pairwise_insertNat {x : List Char} {l : List (List Char)}
    (hx : matchesVersionFormat x = true) (hl : ∀ y ∈ l, matchesVersionFormat y = true)
    (hp : List.Pairwise VLe l) : List.Pairwise VLe (insertNat x l) := by
  induction l with
  | nil => simp [insertNat]
  | cons y ys ih =>
    have hy : matchesVersionFormat y = true := hl y (List.mem_cons_self _ _)
    have hys : ∀ z ∈ ys, matchesVersionFormat z = true :=
      fun z hz => hl z (List.mem_cons_of_mem _ hz)
    obtain ⟨hyall, hpys⟩ := List.pairwise_cons.mp hp
    unfold insertNat
    split_ifs with h
    · refine List.pairwise_cons.mpr ⟨?_, hp⟩
      intro z hz
      have hxy : VLe x y := tupleLtP_le ((natLess_valid hx hy).mp h)
      rcases List.mem_cons.mp hz with rfl | hz2
      · exact hxy
      · exact VLe_trans hxy (hyall z hz2)
    · refine List.pairwise_cons.mpr ⟨?_, ih hys hpys⟩
      intro z hz
      rcases mem_insertNat.mp hz with rfl | hz2
      · have hnlt : ¬ tupleLtP (versionTuple z) (versionTuple y) :=
          fun hlt => h ((natLess_valid hx hy).mpr hlt)
        exact tupleLe_iff.mpr hnlt
      · exact hyall z hz2

theorem pairwise_natsortSort {l : List (List Char)}
    (hl : ∀ y ∈ l, matchesVersionFormat y = true) :
    List.Pairwise VLe (natsortSort l) := by
  induction l with
  | nil => simp [natsortSort]
  | cons y ys ih =>
    show List.Pairwise VLe (insertNat y (natsortSort ys))
    refine pairwise_insertNat (hl y (List.mem_cons_self _ _)) ?_
      (ih fun z hz => hl z (List.mem_cons_of_mem _ hz))
    intro z hz
    exact hl z (List.mem_cons_of_mem _ (mem_natsortSort.mp hz))

theorem lastD_mem : ∀ {l : List (List Char)}, l ≠ [] → lastD l ∈ l := by
  intro l
  induction l with
  | nil => intro h; exact absurd rfl h
  | cons x xs ih =>
    intro _
    rcases xs with _ | ⟨y, ys⟩
    · simp [lastD]
    · have hm := ih (by simp)
      rw [show lastD (x :: y :: ys) = lastD (y :: ys) from rfl]
      exact List.mem_cons_of_mem _ hm

theorem pairwise_lastD_max : ∀ {l : List (List Char)}, List.Pairwise VLe l →
    ∀ x ∈ l, VLe x (lastD l) := by
  intro l
  induction l with
  | nil => intro _ x hx; simp at hx
  | cons y ys ih =>
    intro hp x hx
    obtain ⟨hyall, hpys⟩ := List.pairwise_cons.mp hp
    rcases ys with _ | ⟨z, zs⟩
    · have hxy : x = y := by simpa using hx
      subst hxy
      exact VLe_refl _
    · rw [show lastD (y :: z :: zs) = lastD (z :: zs) from rfl]
      rcases List.mem_cons.mp hx with rfl | hx2
      · exact hyall _ (lastD_mem (by simp))
      · exact ih hpys x hx2

end Bump

namespace Bump

/-! ### `getLatestVersionTag` and `int64Wrap` -/

theorem getLatestVersionTag_all_invalid {tagList : List (List Char)}
    (h : ∀ t ∈ tagList, validateVersionFormat t ≠ none) :
    getLatestVersionTag tagList = (⟨0, 0, 0⟩, some .noVersionTagsFound) := by
  have hfil : tagList.filter (fun t => (validateVersionFormat t).isNone) = [] := by
    rw [List.filter_eq_nil_iff]
    intro t ht
    simp only [Option.isNone_iff_eq_none, Bool.not_eq_true]
    intro hc
    exact h t ht (by simpa using hc)
  simp [getLatestVersionTag, hfil]

theorem getLatestVersionTag_max {tagList : List (List Char)} {t : List Char}
    (ht : t ∈ tagList) (hm : matchesVersionFormat t = true)
    (hmax : ∀ u ∈ tagList, matchesVersionFormat u = true →
      tupleLe (versionTuple u) (versionTuple t))
    (h1 : (versionTuple t).1 ≤ 9223372036854775807)
    (h2 : (versionTuple t).2.1 ≤ 9223372036854775807)
    (h3 : (versionTuple t).2.2 ≤ 9223372036854775807) :
    getLatestVersionTag tagList = (tupleVersion (versionTuple t), none) := by
  have hpred : (fun u => (validateVersionFormat u).isNone) t = true := by
    simp [validateVersionFormat_isNone, hm]
  have htv : t ∈ tagList.filter (fun u => (validateVersionFormat u).isNone) :=
    List.mem_filter.mpr ⟨ht, hpred⟩
  have hvalid : ∀ u ∈ tagList.filter (fun u => (validateVersionFormat u).isNone),
      matchesVersionFormat u = true := by
    intro u hu
    have hp := (List.mem_filter.mp hu).2
    rwa [validateVersionFormat_isNone] at hp
  have hmemtag : ∀ u ∈ tagList.filter (fun u => (validateVersionFormat u).isNone),
      u ∈ tagList := fun u hu => (List.mem_filter.mp hu).1
  have hsortmem : t ∈ natsortSort (tagList.filter (fun u => (validateVersionFormat u).isNone)) :=
    mem_natsortSort.mpr htv
  have hsortne : natsortSort (tagList.filter (fun u => (validateVersionFormat u).isNone)) ≠ [] :=
    List.ne_nil_of_mem hsortmem
  have hlastmem := lastD_mem hsortne
  have hlastfil := mem_natsortSort.mp hlastmem
  have hlastvalid := hvalid _ hlastfil
  have hle1 : VLe t (lastD (natsortSort (tagList.filter
      (fun u => (validateVersionFormat u).isNone)))) :=
    pairwise_lastD_max (pairwise_natsortSort hvalid) t hsortmem
  have hle2 : tupleLe (versionTuple (lastD (natsortSort (tagList.filter
      (fun u => (validateVersionFormat u).isNone))))) (versionTuple t) :=
    hmax _ (hmemtag _ hlastfil) hlastvalid
  have heq : versionTuple (lastD (natsortSort (tagList.filter
      (fun u => (validateVersionFormat u).isNone)))) = versionTuple t :=
    tupleLe_antisymm hle2 hle1
  have hcast := CastToVersion_valid hlastvalid (heq ▸ h1) (heq ▸ h2) (heq ▸ h3)
  rw [heq] at hcast
  have hfilne : (tagList.filter (fun u => (validateVersionFormat u).isNone)).isEmpty = false := by
    rcases hfe : tagList.filter (fun u => (validateVersionFormat u).isNone) with _ | ⟨w, ws⟩
    · rw [hfe] at htv
      simp at htv
    · simp
  simp [getLatestVersionTag, hfilne, hcast]

theorem int64Wrap_eq {n : Int} (h1 : -9223372036854775808 ≤ n)
    (h2 : n ≤ 9223372036854775807) : int64Wrap n = n := by
  unfold int64Wrap
  omega

end Bump

namespace Bump

/-! ### The claims -/

/-- C1 (amended): for every list of tag strings containing a matching (format
valid) tag `t` that is greatest among the matching tags under numeric
(major, minor, bugfix) lexicographic order — equivalently, greatest under
natural string ordering — and whose components fit in a 64-bit int,
`getLatestVersionTag` returns, with no error, the `Version` parsed from it:
the maximum of the matching tags under componentwise numeric order.
(The claim as stated, without the range proviso, is refuted by
`C1_counterexample`.) -/
theorem C1_getLatestVersionTag_max (tagList : List (List Char)) (t : List Char)
    (ht : t ∈ tagList) (hm : matchesVersionFormat t = true)
    (hmax : ∀ u ∈ tagList, matchesVersionFormat u = true →
      tupleLe (versionTuple u) (versionTuple t))
    (hr : tupleInRange (versionTuple t)) :
    getLatestVersionTag tagList = (tupleVersion (versionTuple t), none) ∧
      CastToVersion t = (tupleVersion (versionTuple t), none) :=
  ⟨getLatestVersionTag_max ht hm hmax hr.1 hr.2.1 hr.2.2,
   CastToVersion_valid hm hr.1 hr.2.1 hr.2.2⟩

/-- C1 counterexample: a tag that passes the format validator but whose major
component exceeds the 64-bit integer range makes `getLatestVersionTag` fail
with the `Atoi` range error, refuting the claim that any list with at least
one matching tag yields a result with no error. -/
theorem C1_counterexample :
    matchesVersionFormat "v9223372036854775808.0.0".data = true ∧
      (getLatestVersionTag ["v9223372036854775808.0.0".data]).2 =
        some BumpError.atoiRange := by
  decide

/-- C1 witness: the spec example, `["v0.0.25","v0.0.5"]` selects `v0.0.25`
(natural, not lexicographic, ordering). -/
theorem C1_witness :
    getLatestVersionTag ["v0.0.25".data, "v0.0.5".data] =
      (⟨0, 0, 25⟩, none) := by
  have h := C1_getLatestVersionTag_max ["v0.0.25".data, "v0.0.5".data]
    "v0.0.25".data (by decide) (by decide) (by decide) (by decide)
  exact h.1.trans (by decide)

/-- C2 counterexample: at the maximum 64-bit `int` value the major increment
wraps to the minimum value rather than producing `major + 1`, refuting the
claim for every `Version`. -/
theorem C2_counterexample :
    (incrementVersion ⟨9223372036854775807, 5, 5⟩ true false).1 ≠
      ⟨9223372036854775807 + 1, 0, 0⟩ := by
  decide

/-- C2 (amended): for every `Version` with components in 64-bit `int` range
whose incremented component is below the maximum `int`, `incrementVersion`
returns with no error `(major+1, 0, 0)` when only the major flag is set,
`(major, minor+1, 0)` when only the minor flag is set, and
`(major, minor, bugfix+1)` when neither is set — regardless of the prior
values of the components it resets or leaves unchanged. -/
theorem C2_incrementVersion (v : Version)
    (hmaj : inInt64Range v.majorRelease) (hmin : inInt64Range v.minorRelease)
    (hbug : inInt64Range v.bugFixRelease) :
    (v.majorRelease ≠ 9223372036854775807 →
      incrementVersion v true false = (⟨v.majorRelease + 1, 0, 0⟩, none)) ∧
    (v.minorRelease ≠ 9223372036854775807 →
      incrementVersion v false true = (⟨v.majorRelease, v.minorRelease + 1, 0⟩, none)) ∧
    (v.bugFixRelease ≠ 9223372036854775807 →
      incrementVersion v false false =
        (⟨v.majorRelease, v.minorRelease, v.bugFixRelease + 1⟩, none)) := by
  have hw : ∀ n : Int, inInt64Range n → n ≠ 9223372036854775807 →
      int64Wrap (n + 1) = n + 1 := by
    intro n hn hne
    obtain ⟨hlo, hhi⟩ := hn
    exact int64Wrap_eq (by omega) (by omega)
  refine ⟨fun hne => ?_, fun hne => ?_, fun hne => ?_⟩
  · simp [incrementVersion, Version.incrementMajor, hw _ hmaj hne]
  · simp [incrementVersion, Version.incrementMinor, hw _ hmin hne]
  · simp [incrementVersion, Version.incrementBugFix, hw _ hbug hne]

/-- C2 witness: incrementing `v5.5.5` by major, minor, and bugfix. -/
theorem C2_witness :
    incrementVersion ⟨5, 5, 5⟩ true false = (⟨6, 0, 0⟩, none) ∧
    incrementVersion ⟨5, 5, 5⟩ false true = (⟨5, 6, 0⟩, none) ∧
    incrementVersion ⟨5, 5, 5⟩ false false = (⟨5, 5, 6⟩, none) := by
  obtain ⟨h1, h2, h3⟩ := C2_incrementVersion ⟨5, 5, 5⟩ ⟨by decide, by decide⟩
    ⟨by decide, by decide⟩ ⟨by decide, by decide⟩
  exact ⟨(h1 (by decide)).trans (by decide), (h2 (by decide)).trans (by decide),
    (h3 (by decide)).trans (by decide)⟩

/-- C3: the format validator succeeds (returns no error) exactly on the
strings matching `^v[0-9]+\.[0-9]+\.[0-9]+$`, and on every other string it
fails with the `VersionFormat` error. -/
theorem C3_validateVersionFormat_regex (s : List Char) :
    (validateVersionFormat s = none ↔ MatchesVersionRegex s) ∧
    (validateVersionFormat s = none ∨
      validateVersionFormat s = some BumpError.versionFormat) := by
  constructor
  · rw [validateVersionFormat_eq_none]
    exact matchesVersionFormat_iff
  · unfold validateVersionFormat
    split_ifs <;> simp

/-- C4: round-trip — parsing the canonical string `v{major}.{minor}.{bugfix}`
of any `Version` with non-negative components within 64-bit integer range
yields that `Version` back, with no error. -/
theorem C4_roundTrip (v : Version)
    (h1 : 0 ≤ v.majorRelease ∧ v.majorRelease ≤ 9223372036854775807)
    (h2 : 0 ≤ v.minorRelease ∧ v.minorRelease ≤ 9223372036854775807)
    (h3 : 0 ≤ v.bugFixRelease ∧ v.bugFixRelease ≤ 9223372036854775807) :
    CastToVersion (Version.String v) = (v, none) := by
  obtain ⟨M, N, B⟩ := v
  simp only at h1 h2 h3
  have hintM : intToChars M = natToChars M.toNat := by
    unfold intToChars
    rw [if_neg (by omega)]
  have hintN : intToChars N = natToChars N.toNat := by
    unfold intToChars
    rw [if_neg (by omega)]
  have hintB : intToChars B = natToChars B.toNat := by
    unfold intToChars
    rw [if_neg (by omega)]
  have hstr : Version.String ⟨M, N, B⟩ = 'v' :: (natToChars M.toNat ++ '.' ::
      (natToChars N.toNat ++ '.' :: natToChars B.toNat)) := by
    simp [Version.String, hintM, hintN, hintB]
  have ha : IsDigitRunP (natToChars M.toNat) := ⟨natToChars_ne_nil _, natToChars_all_digit _⟩
  have hb : IsDigitRunP (natToChars N.toNat) := ⟨natToChars_ne_nil _, natToChars_all_digit _⟩
  have hc : IsDigitRunP (natToChars B.toNat) := ⟨natToChars_ne_nil _, natToChars_all_digit _⟩
  have hm : matchesVersionFormat (Version.String ⟨M, N, B⟩) = true := by
    rw [hstr]
    exact matchesVersionFormat_iff.mpr ⟨_, _, _, rfl, ha, hb, hc⟩
  have htup : versionTuple (Version.String ⟨M, N, B⟩) = (M.toNat, N.toNat, B.toNat) := by
    rw [hstr, versionTuple_decomp (digitRun_no_dot ha.2) (digitRun_no_dot hb.2)
      (digitRun_no_dot hc.2), digitsToNat_natToChars, digitsToNat_natToChars,
      digitsToNat_natToChars]
  have hr1 : (versionTuple (Version.String ⟨M, N, B⟩)).1 ≤ 9223372036854775807 := by
    rw [htup]
    show M.toNat ≤ 9223372036854775807
    omega
  have hr2 : (versionTuple (Version.String ⟨M, N, B⟩)).2.1 ≤ 9223372036854775807 := by
    rw [htup]
    show N.toNat ≤ 9223372036854775807
    omega
  have hr3 : (versionTuple (Version.String ⟨M, N, B⟩)).2.2 ≤ 9223372036854775807 := by
    rw [htup]
    show B.toNat ≤ 9223372036854775807
    omega
  have hc4 := CastToVersion_valid hm hr1 hr2 hr3
  rw [htup] at hc4
  rw [hc4]
  simp [tupleVersion, Int.toNat_of_nonneg h1.1, Int.toNat_of_nonneg h2.1,
    Int.toNat_of_nonneg h3.1]

/-- C4 witness: round-trip of `v1.22.333`. -/
theorem C4_witness : CastToVersion (Version.String ⟨1, 22, 333⟩) = (⟨1, 22, 333⟩, none) :=
  C4_roundTrip ⟨1, 22, 333⟩ ⟨by decide, by decide⟩ ⟨by decide, by decide⟩
    ⟨by decide, by decide⟩

/-- C5: with both flags set, `incrementVersion` fails with the
`CannotIncrementMajAndMin` error and returns the input `Version` itself,
unmodified. -/
theorem C5_bothFlags (v : Version) :
    incrementVersion v true true = (v, some BumpError.cannotIncrementMajAndMin) := by
  simp [incrementVersion]

end Bump

namespace Bump

/-- C6: for every list of tag strings in which no string passes the format
validator — including a single-element list and a list containing only the
empty string — `getLatestVersionTag` fails with the `NoVersionTagsFound`
error (returning the zero `Version`). -/
theorem C6_noVersionTags (tagList : List (List Char))
    (h : ∀ t ∈ tagList, validateVersionFormat t ≠ none) :
    getLatestVersionTag tagList = (⟨0, 0, 0⟩, some BumpError.noVersionTagsFound) :=
  getLatestVersionTag_all_invalid h

/-- C6 witness: a single non-matching tag and a list holding only the empty
string both yield `NoVersionTagsFound`. -/
theorem C6_witness :
    getLatestVersionTag ["0.0.0".data] = (⟨0, 0, 0⟩, some BumpError.noVersionTagsFound) ∧
    getLatestVersionTag [[]] = (⟨0, 0, 0⟩, some BumpError.noVersionTagsFound) :=
  ⟨C6_noVersionTags _ (by decide), C6_noVersionTags _ (by decide)⟩

/-- C7: when the format validator rejects a string, `CastToVersion` fails
with exactly the validator's error, unchanged; when the validator accepts
but a per-component integer conversion fails (possible only through the
integer-range check, since the pattern constrains digit shape only),
`CastToVersion` fails with the underlying conversion error, which is not the
`VersionFormat` error. -/
theorem C7_parserErrors (s : List Char) :
    (∀ e, validateVersionFormat s = some e → CastToVersion s = (⟨0, 0, 0⟩, some e)) ∧
    (∀ e, validateVersionFormat s = none →
      atoiList (splitOnDot (trimPrefixV s)) = .error e →
      CastToVersion s = (⟨0, 0, 0⟩, some e) ∧ e ≠ BumpError.versionFormat) := by
  constructor
  · intro e he
    simp [CastToVersion, he]
  · intro e hv ha
    constructor
    · simp [CastToVersion, hv, ha]
    · rcases atoiList_err ha with rfl | rfl <;> decide
/-- C7 witness: the validator error propagates unchanged on `"a"`, and a
valid-format tag with an out-of-range component fails with the range error
rather than the format error. -/
theorem C7_witness :
    CastToVersion ['a'] = (⟨0, 0, 0⟩, some BumpError.versionFormat) ∧
    (CastToVersion "v9223372036854775808.0.0".data =
        (⟨0, 0, 0⟩, some BumpError.atoiRange) ∧
      BumpError.atoiRange ≠ BumpError.versionFormat) :=
  ⟨(C7_parserErrors ['a']).1 BumpError.versionFormat (by decide),
   (C7_parserErrors "v9223372036854775808.0.0".data).2 BumpError.atoiRange
     (by decide) (by decide)⟩

/-- C8: in `BumpVersion`, a selector failure that is exactly
`NoVersionTagsFound` is not an error: the increment is skipped and the
publisher `tag` is called directly with the zero `Version`, whose canonical
form is `v0.0.0`; any error from fetching the remote tags, and any other
selector error, is propagated wrapped with context. -/
theorem C8_orchestration (repo : Repo) (major minor : Bool) :
    (∀ tagList, getRemoteGitTags repo = (tagList, none) →
      (getLatestVersionTag tagList).2 = some BumpError.noVersionTagsFound →
      BumpVersion repo major minor = (tag repo ⟨0, 0, 0⟩, some ⟨0, 0, 0⟩) ∧
        Version.String ⟨0, 0, 0⟩ = "v0.0.0".data) ∧
    (∀ e, (getRemoteGitTags repo).2 = some e →
      BumpVersion repo major minor = (some (.wrapped getTagsMsg e), none)) ∧
    (∀ tagList e, getRemoteGitTags repo = (tagList, none) →
      (getLatestVersionTag tagList).2 = some e → e ≠ BumpError.noVersionTagsFound →
      BumpVersion repo major minor = (some (.wrapped latestTagMsg e), none)) := by
  refine ⟨?_, ?_, ?_⟩
  · intro tagList hg hl
    rcases hlat : getLatestVersionTag tagList with ⟨v0, oe⟩
    rw [hlat] at hl
    simp at hl
    subst hl
    refine ⟨?_, by decide⟩
    simp [BumpVersion, hg, hlat]
  · intro e hg
    rcases hget : getRemoteGitTags repo with ⟨tl, oe⟩
    rw [hget] at hg
    simp at hg
    subst hg
    simp [BumpVersion, hget]
  · intro tagList e hg hl hne
    rcases hlat : getLatestVersionTag tagList with ⟨v0, oe⟩
    rw [hlat] at hl
    simp at hl
    subst hl
    simp [BumpVersion, hg, hlat, hne]

/-- C8 witness: a repository whose only remote reference is a branch takes
the bootstrap path and publishes `v0.0.0` with no error. -/
theorem C8_witness :
    BumpVersion ⟨none, none, [⟨RefKind.branchRef, "main".data⟩], none, none, none, none⟩
        false false = (none, some ⟨0, 0, 0⟩) ∧
      Version.String ⟨0, 0, 0⟩ = "v0.0.0".data := by
  have h := (C8_orchestration
    ⟨none, none, [⟨RefKind.branchRef, "main".data⟩], none, none, none, none⟩
    false false).1 ["main".data] (by decide) (by decide)
  exact ⟨h.1.trans (by decide), h.2⟩

/-- C9: in the publisher `tag`, once the local tag is created and the push
fails, a successful rollback delete surfaces only the push failure (wrapped),
while a failed rollback surfaces the error whose message states both the
push failure and that manual cleanup may be required (wrapping the delete
error). -/
theorem C9_tagRollback (repo : Repo) (v : Version) (e : List Char)
    (hh : repo.headErr = none) (hc : repo.createErr = none)
    (hp : repo.pushErr = some e) :
    (repo.deleteErr = none →
      tag repo v = some (.wrapped pushMsg (.gitError e))) ∧
    (∀ de, repo.deleteErr = some de →
      tag repo v = some (.wrapped rollbackMsg (.gitError de))) := by
  constructor
  · intro hd
    simp [tag, hh, hc, hp, hd]
  · intro de hd
    simp [tag, hh, hc, hp, hd]

/-- C9 witness: a failing push with a succeeding rollback reports only the
push failure; a failing rollback reports the combined rollback message. -/
theorem C9_witness :
    tag ⟨none, none, [], none, none, some "net down".data, none⟩ ⟨1, 2, 3⟩ =
      some (.wrapped pushMsg (.gitError "net down".data)) ∧
    tag ⟨none, none, [], none, none, some "net down".data, some "perm".data⟩ ⟨1, 2, 3⟩ =
      some (.wrapped rollbackMsg (.gitError "perm".data)) :=
  ⟨(C9_tagRollback ⟨none, none, [], none, none, some "net down".data, none⟩
      ⟨1, 2, 3⟩ "net down".data rfl rfl rfl).1 rfl,
   (C9_tagRollback ⟨none, none, [], none, none, some "net down".data, some "perm".data⟩
      ⟨1, 2, 3⟩ "net down".data rfl rfl rfl).2 "perm".data rfl⟩

/-- C10 (implicit): `getRemoteGitTags` returns the short names of every
reference the remote reports — of any kind, branches and HEAD included — and
fails with `NoTagsFound` exactly when the remote reports zero references;
hence a remote with references but no version-format names feeds the
selector a nonempty list and `BumpVersion` takes the bootstrap path,
publishing `v0.0.0`. -/
theorem C10_getRemoteGitTags (repo : Repo) (major minor : Bool)
    (hro : repo.remoteOriginErr = none) (hl : repo.listErr = none) :
    (repo.refs ≠ [] → getRemoteGitTags repo = (repo.refs.map Ref.shortName, none)) ∧
    (repo.refs = [] → getRemoteGitTags repo = ([], some BumpError.noTagsFound)) ∧
    (repo.refs ≠ [] → (∀ r ∈ repo.refs, validateVersionFormat r.shortName ≠ none) →
      BumpVersion repo major minor = (tag repo ⟨0, 0, 0⟩, some ⟨0, 0, 0⟩)) := by
  have hok : repo.refs ≠ [] → getRemoteGitTags repo = (repo.refs.map Ref.shortName, none) := by
    intro hne
    have hemp : repo.refs.isEmpty = false := by
      rcases hr : repo.refs with _ | ⟨x, xs⟩
      · exact absurd hr hne
      · simp
    simp [getRemoteGitTags, hro, hl, hemp]
  refine ⟨hok, ?_, ?_⟩
  · intro hnil
    have hemp : repo.refs.isEmpty = true := by
      rw [hnil]
      rfl
    simp [getRemoteGitTags, hro, hl, hemp]
  · intro hne hnov
    have hlat : getLatestVersionTag (repo.refs.map Ref.shortName) =
        (⟨0, 0, 0⟩, some BumpError.noVersionTagsFound) := by
      refine getLatestVersionTag_all_invalid ?_
      intro t ht
      obtain ⟨r, hr, rfl⟩ := List.mem_map.mp ht
      exact hnov r hr
    simp [BumpVersion, hok hne, hlat]

/-- C10 witness: a remote reporting a branch and HEAD (no tags) yields their
short names, and `BumpVersion` bootstraps `v0.0.0` rather than failing with
`NoTagsFound`. -/
theorem C10_witness :
    getRemoteGitTags ⟨none, none, [⟨RefKind.branchRef, "main".data⟩,
        ⟨RefKind.headRef, "HEAD".data⟩], none, none, none, none⟩ =
      (["main".data, "HEAD".data], none) ∧
    BumpVersion ⟨none, none, [⟨RefKind.branchRef, "main".data⟩,
        ⟨RefKind.headRef, "HEAD".data⟩], none, none, none, none⟩ true false =
      (none, some ⟨0, 0, 0⟩) := by
  have h := C10_getRemoteGitTags ⟨none, none, [⟨RefKind.branchRef, "main".data⟩,
    ⟨RefKind.headRef, "HEAD".data⟩], none, none, none, none⟩ true false rfl rfl
  exact ⟨(h.1 (by decide)).trans (by decide), (h.2.2 (by decide) (by decide)).trans (by decide)⟩

end Bump
